import Mathlib

/-!
Verification of the Patmos LLVM backend core against its specification.

The definitions below are shallow embeddings of the C++ sources of the
Patmos target (single-path transformation, stack/frame assignment,
frame-index elimination and the post-RA bundling scheduler).  Each
definition carries a reference to the function it embeds.  Machine
integers are modelled as `Nat`/`Int`; partial C++ behaviour (assertion
failures, out-of-bounds operand accesses) is modelled with `Option`.
-/

namespace PatmosProof

/-! ### Stack/frame assignment
Embeds `PatmosFrameLowering::assignFrameObjects` and the helper `align`
(PatmosFrameLowering.cpp, delivered inside AsmParser/PatmosAsmParser.cpp,
lines 928-1087). -/

/-- Embedding of `static unsigned int align(unsigned int offset, unsigned int alignment)`:
`((offset + alignment - 1) / alignment) * alignment`. -/
def alignTo (offset alignment : Nat) : Nat :=
  ((offset + alignment - 1) / alignment) * alignment

/-- One abstract stack frame object: its byte size, required alignment,
whether it is a dead object (skipped by the loop), and whether
`assignFIsToStackCache` nominated it for the stack cache (the `SCFIs`
bit for its frame index). -/
structure FrameObj where
  size : Nat
  alignment : Nat
  dead : Bool
  scEligible : Bool
  deriving DecidableEq, Repr

/-- Where an object ended up after `assignFrameObjects`. -/
inductive Placement where
  | sc (off : Nat)
  | ss (off : Nat)
  | dead
  deriving DecidableEq, Repr

/-- Stack-cache configuration: `STC.getStackCacheBlockSize()` and
`STC.getStackCacheSize()`. -/
structure SCConfig where
  blockSize : Nat
  scSize : Nat
  deriving DecidableEq, Repr

/-- Running state of the frame-object loop in `assignFrameObjects`:
the next free stack-cache offset `SCOffset`, the next free shadow-stack
offset `SSOffset`, and the placements decided so far (paired with the
object they place, mirroring the `setObjectOffset`/`SCFIs` updates). -/
structure AssignState where
  scOffset : Nat
  ssOffset : Nat
  placements : List (FrameObj × Placement)
  deriving DecidableEq, Repr

/-- Shadow-stack fallthrough of the loop body: align `SSOffset` to the
object's alignment (the local `SSOffset = align(SSOffset, FIalignment)`
of the source), record the offset, reserve the space. -/
def assignToSS (st : AssignState) (o : FrameObj) : AssignState :=
  { st with ssOffset := alignTo st.ssOffset o.alignment + o.size,
            placements := st.placements ++
              [(o, Placement.ss (alignTo st.ssOffset o.alignment))] }

/-- Loop body of `assignFrameObjects` for one frame object: dead objects
are skipped; an `SCFIs` object is placed at the aligned stack-cache
offset (the local `next_SCOffset` of the source, inlined here) if the
block-rounded end still fits `STC.getStackCacheSize()`, otherwise its
`SCFIs` bit is cleared and it falls through to the shadow stack;
non-eligible objects go to the shadow stack directly. -/
def assignObj (cfg : SCConfig) (st : AssignState) (o : FrameObj) : AssignState :=
  if o.dead then
    { st with placements := st.placements ++ [(o, Placement.dead)] }
  else if o.scEligible then
    if alignTo (alignTo st.scOffset o.alignment + o.size) cfg.blockSize ≤
        cfg.scSize then
      { st with scOffset := alignTo st.scOffset o.alignment + o.size,
                placements := st.placements ++
                  [(o, Placement.sc (alignTo st.scOffset o.alignment))] }
    else
      assignToSS st o
  else
    assignToSS st o

/-- Embedding of the frame-object loop of
`PatmosFrameLowering::assignFrameObjects`.  `ssInit` is the initial
shadow-stack offset (`hasFP(MF) ? 0 : maxFrameSize`). -/
def assignFrameObjects (cfg : SCConfig) (ssInit : Nat) (objs : List FrameObj) :
    AssignState :=
  objs.foldl (assignObj cfg) ⟨0, ssInit, []⟩

/-- Final stack-cache footprint computed after the loop:
`align(SCOffset, STC.getStackCacheBlockSize())`. -/
def stackCacheFootprint (cfg : SCConfig) (st : AssignState) : Nat :=
  alignTo st.scOffset cfg.blockSize

/-- A recorded placement is sound for configuration `cfg`: a stack-cache
placement only happens for an eligible live object whose block-rounded
end fits the capacity. -/
def PlacementSound (cfg : SCConfig) (p : FrameObj × Placement) : Prop :=
  ∀ off, p.2 = Placement.sc off →
    p.1.scEligible = true ∧ p.1.dead = false ∧
      alignTo (off + p.1.size) cfg.blockSize ≤ cfg.scSize

theorem alignTo_zero (b : Nat) : alignTo 0 b = 0 := by
  unfold alignTo
  rcases Nat.eq_zero_or_pos b with hb | hb
  · simp [hb]
  · have : (0 + b - 1) / b = 0 := Nat.div_eq_of_lt (by omega)
    rw [this, Nat.zero_mul]

/-- Capacity invariant preserved by one loop step, together with
per-placement soundness. -/
theorem assignObj_inv (cfg : SCConfig) (st : AssignState) (o : FrameObj)
    (hcap : alignTo st.scOffset cfg.blockSize ≤ cfg.scSize)
    (hpl : ∀ p ∈ st.placements, PlacementSound cfg p) :
    alignTo (assignObj cfg st o).scOffset cfg.blockSize ≤ cfg.scSize ∧
      ∀ p ∈ (assignObj cfg st o).placements, PlacementSound cfg p := by
  unfold assignObj assignToSS
  split
  · refine ⟨hcap, ?_⟩
    intro p hp
    simp only [List.mem_append, List.mem_singleton] at hp
    rcases hp with hp | hp
    · exact hpl p hp
    · subst hp; intro off h; cases h
  · split
    · split
      · rename_i hdead helig hfit
        constructor
        · simpa using hfit
        · intro p hp
          simp only [List.mem_append, List.mem_singleton] at hp
          rcases hp with hp | hp
          · exact hpl p hp
          · subst hp
            intro off h
            simp only [Placement.sc.injEq] at h
            subst h
            refine ⟨helig, by simpa using hdead, by simpa using hfit⟩
      · refine ⟨hcap, ?_⟩
        intro p hp
        simp only [List.mem_append, List.mem_singleton] at hp
        rcases hp with hp | hp
        · exact hpl p hp
        · subst hp; intro off h; cases h
    · refine ⟨hcap, ?_⟩
      intro p hp
      simp only [List.mem_append, List.mem_singleton] at hp
      rcases hp with hp | hp
      · exact hpl p hp
      · subst hp; intro off h; cases h

theorem assignFrameObjects_inv (cfg : SCConfig) (objs : List FrameObj)
    (st : AssignState)
    (hcap : alignTo st.scOffset cfg.blockSize ≤ cfg.scSize)
    (hpl : ∀ p ∈ st.placements, PlacementSound cfg p) :
    alignTo (objs.foldl (assignObj cfg) st).scOffset cfg.blockSize ≤ cfg.scSize ∧
      ∀ p ∈ (objs.foldl (assignObj cfg) st).placements, PlacementSound cfg p := by
  induction objs generalizing st with
  | nil => exact ⟨hcap, hpl⟩
  | cons o rest ih =>
      have h := assignObj_inv cfg st o hcap hpl
      exact ih (assignObj cfg st o) h.1 h.2

/-- C4: for every input set of frame objects, the final stack-cache
footprint (the running stack-cache offset rounded up to the block
granularity) never exceeds the configured stack-cache capacity, and
every object placed in the stack cache is a cache-eligible object whose
aligned, block-rounded placement fits the capacity - equivalently, every
cache-eligible object whose placement would exceed the capacity fell
through to the shadow stack. -/
theorem stack_partition_capacity (cfg : SCConfig) (ssInit : Nat)
    (objs : List FrameObj) :
    stackCacheFootprint cfg (assignFrameObjects cfg ssInit objs) ≤ cfg.scSize ∧
      ∀ p ∈ (assignFrameObjects cfg ssInit objs).placements,
        ∀ off, p.2 = Placement.sc off →
          p.1.scEligible = true ∧ p.1.dead = false ∧
            alignTo (off + p.1.size) cfg.blockSize ≤ cfg.scSize := by
  have h := assignFrameObjects_inv cfg objs ⟨0, ssInit, []⟩
    (by simp [alignTo_zero]) (by intro p hp; cases hp)
  exact ⟨h.1, h.2⟩

/-- Witness for C4 at a concrete input: two 4-byte objects with an
8-byte block and 8-byte capacity; the second object overflows and the
invariant still holds. -/
theorem stack_partition_capacity_witness :
    stackCacheFootprint ⟨8, 8⟩
        (assignFrameObjects ⟨8, 8⟩ 0
          [⟨4, 4, false, true⟩, ⟨8, 4, false, true⟩]) ≤ 8 ∧
      ∀ p ∈ (assignFrameObjects ⟨8, 8⟩ 0
          [⟨4, 4, false, true⟩, ⟨8, 4, false, true⟩]).placements,
        ∀ off, p.2 = Placement.sc off →
          p.1.scEligible = true ∧ p.1.dead = false ∧
            alignTo (off + p.1.size) 8 ≤ 8 :=
  stack_partition_capacity ⟨8, 8⟩ 0 [⟨4, 4, false, true⟩, ⟨8, 4, false, true⟩]

set_option maxRecDepth 4000

/-- C8: 40 cache-eligible 4-byte objects with 4-byte alignment, an
8-byte stack-cache block size and a 128-byte capacity: the first 32
objects land in the stack cache at offsets 0,4,...,124 (128 bytes after
block rounding) and the remaining 8 land on the shadow stack at offsets
0,4,...,28, in frame-index order. -/
theorem stack_partition_scenario :
    (assignFrameObjects ⟨8, 128⟩ 0
        (List.replicate 40 ⟨4, 4, false, true⟩)).placements.map Prod.snd =
      ((List.range 32).map (fun k => Placement.sc (4 * k)) ++
        (List.range 8).map (fun k => Placement.ss (4 * k))) ∧
      stackCacheFootprint ⟨8, 128⟩
        (assignFrameObjects ⟨8, 128⟩ 0
          (List.replicate 40 ⟨4, 4, false, true⟩)) = 128 := by
  constructor
  · decide
  · decide

/-! ### Single-path reducer: predication (PatmosSPReduce.cpp)
Embeds `PatmosSPReduce::applyPredicates`, `PatmosSPReduce::extractPReg`
and the guard structure of `PatmosSPReduce::doReduceFunction`. -/

/-- Opcodes that matter for the predication pass: `Patmos::PAND`,
`Patmos::LIi`, `Patmos::BTEST`; all other opcodes are kept abstract. -/
inductive Opc where
  | pand
  | lii
  | btest
  | other (code : Nat)
  deriving DecidableEq, Repr

/-- Register `Patmos::NoRegister` (numbering 0, the default "always
true" guard operand added by `AddDefaultPred`). -/
def noRegister : Nat := 0

/-- Register `Patmos::RTR` (reserved temp register, numbering 27). -/
def rtrReg : Nat := 27

/-- Register `Patmos::R26`, used as `GuardsReg` by the reducer. -/
def guardsReg : Nat := 26

/-- One machine instruction as the predication pass sees it: its opcode,
the `isReturn`/`isPredicable` description flags, the two predicate
operands (guard register and flag immediate) found at
`findFirstPredOperandIdx`, and the non-predicate operands that the
newly built instructions carry (destination and two argument operand
pairs); the latter are 0 for instructions where they play no role. -/
structure MInstr where
  opcode : Opc
  isReturn : Bool
  isPredicable : Bool
  predReg : Nat
  predImm : Int
  dst : Nat
  arg1Reg : Nat
  arg1Imm : Int
  arg2Reg : Nat
  arg2Imm : Int
  deriving DecidableEq, Repr

/-- Modelled from the spec: `PatmosInstrInfo::isPredicated` (declared in
PatmosInstrInfo.h, "If the instruction has other than default predicate
operands (p0), return true"; its body lives in PatmosInstrInfo.cpp which
is not among the sources).  The default predicate operands are the ones
`AddDefaultPred` adds: register `NoRegister` (numbering 0, same
numbering as `P0`) and flag 0. -/
def isPredicatedI (m : MInstr) : Bool :=
  !(m.predReg == noRegister && m.predImm == 0)

/-- The `PAND` instruction built by `applyPredicates` for an already
predicated instruction:
`AddDefaultPred(BuildMI(.., PAND, PRTmp)).addReg(PReg).addImm(0).addOperand(PO1).addOperand(PO2)`. -/
def mkPAND (pRTmp pReg oldReg : Nat) (oldImm : Int) : MInstr :=
  ⟨Opc.pand, false, true, noRegister, 0, pRTmp, pReg, 0, oldReg, oldImm⟩

/-- The `LIi $rtr, pred` instruction built by `extractPReg`. -/
def mkLIi (pred : Int) : MInstr :=
  ⟨Opc.lii, false, true, noRegister, 0, rtrReg, 0, pred, 0, 0⟩

/-- The `BTEST $Guards, $rtr` instruction built by `extractPReg`,
defining `PReg`. -/
def mkBTEST (pReg : Nat) : MInstr :=
  ⟨Opc.btest, false, true, noRegister, 0, pReg, guardsReg, 0, rtrReg, 0⟩

/-- Per-instruction body of the loop in
`PatmosSPReduce::applyPredicates`: returns are skipped; a predicable
unpredicated instruction gets its predicate operands set to
`(PReg, 0)`; a predicable already-predicated instruction gets a fresh
`PAND PRTmp = PReg ∧ old-pred` inserted before it and its predicate
operands set to `(PRTmp, 0)`; everything else is untouched. -/
def applyPredInstr (pReg pRTmp : Nat) (m : MInstr) : List MInstr :=
  if m.isReturn then [m]
  else if m.isPredicable then
    if !isPredicatedI m then
      [{ m with predReg := pReg, predImm := 0 }]
    else
      [mkPAND pRTmp pReg m.predReg m.predImm,
        { m with predReg := pRTmp, predImm := 0 }]
  else [m]

/-- One basic block as the reducer sees it: its instruction list and the
entry the analysis recorded in the `PredUse` map (absent when the block
was not assigned a predicate). -/
structure SPBlock where
  instrs : List MInstr
  predUse : Option Nat
  deriving DecidableEq, Repr

/-- Embedding of `PatmosSinglePathInfo::getPredUse` (PatmosSinglePathInfo.cpp
lines 752-757): the recorded predicate id, or -1 when the map has no
entry for the block. -/
def getPredUse (b : SPBlock) : Int :=
  match b.predUse with
  | none => -1
  | some k => (k : Int)

/-- Per-block body of `PatmosSPReduce::applyPredicates`: blocks whose
use predicate is ≤ 0 are skipped entirely ("no guard"); otherwise each
instruction is predicated and `extractPReg` prepends the
`LIi $rtr, pred` / `BTEST $Guards, $rtr` extraction sequence at the top
of the block. -/
def applyPredBlock (pReg pRTmp : Nat) (b : SPBlock) : SPBlock :=
  if getPredUse b ≤ 0 then b
  else
    { b with instrs :=
        mkLIi (getPredUse b) :: mkBTEST pReg ::
          (b.instrs.map (applyPredInstr pReg pRTmp)).flatten }

/-- Embedding of `PatmosSPReduce::applyPredicates`: the per-block pass
over all blocks of the machine function. -/
def applyPredicates (pReg pRTmp : Nat) (mf : List SPBlock) : List SPBlock :=
  mf.map (applyPredBlock pReg pRTmp)

theorem applyPredInstr_filter_isReturn (pReg pRTmp : Nat) (m : MInstr) :
    (applyPredInstr pReg pRTmp m).filter (fun j => j.isReturn) =
      [m].filter (fun j => j.isReturn) := by
  unfold applyPredInstr
  by_cases hr : m.isReturn
  · simp [hr]
  · by_cases hp : m.isPredicable
    · by_cases hq : isPredicatedI m
      · simp [hr, hp, hq, mkPAND, List.filter, Bool.not_eq_true]
      · simp [hr, hp, hq, List.filter, Bool.not_eq_true]
    · simp [hr, hp]

theorem flatten_filter_isReturn (pReg pRTmp : Nat) (l : List MInstr) :
    ((l.map (applyPredInstr pReg pRTmp)).flatten.filter (fun j => j.isReturn)) =
      l.filter (fun j => j.isReturn) := by
  induction l with
  | nil => rfl
  | cons m rest ih =>
      simp only [List.map_cons, List.flatten_cons, List.filter_append, ih]
      rw [applyPredInstr_filter_isReturn]
      by_cases hr : m.isReturn
      · simp [hr]
      · simp [hr]

/-- C3: after `applyPredicates` runs, (a) the sequence of return
instructions of every block is exactly the block's original return
instructions, untouched - in particular no return has its predicate
operand rewritten - and (b) in every block whose use predicate is not
the always-true one (id ≥ 1), every predicable non-return instruction
appears in the output with its predicate operand set to `PReg`, or, if
it already carried a non-default predicate, set to the scratch register
`PRTmp` with a `PAND PRTmp = PReg ∧ old-predicate` conjunction
instruction also present in the block. -/
theorem predication_safety (pReg pRTmp : Nat) (b : SPBlock) :
    ((applyPredBlock pReg pRTmp b).instrs.filter (fun j => j.isReturn) =
        b.instrs.filter (fun j => j.isReturn)) ∧
      (0 < getPredUse b → ∀ m ∈ b.instrs,
        m.isReturn = false → m.isPredicable = true →
          (isPredicatedI m = false →
            { m with predReg := pReg, predImm := 0 } ∈
              (applyPredBlock pReg pRTmp b).instrs) ∧
          (isPredicatedI m = true →
            { m with predReg := pRTmp, predImm := 0 } ∈
                (applyPredBlock pReg pRTmp b).instrs ∧
              mkPAND pRTmp pReg m.predReg m.predImm ∈
                (applyPredBlock pReg pRTmp b).instrs)) := by
  constructor
  · unfold applyPredBlock
    by_cases hg : getPredUse b ≤ 0
    · simp [hg]
    · simp only [hg, if_false]
      simp only [List.filter_cons, mkLIi, mkBTEST]
      simpa using flatten_filter_isReturn pReg pRTmp b.instrs
  · intro hg m hm hr hp
    have hout : applyPredInstr pReg pRTmp m ⊆ (applyPredBlock pReg pRTmp b).instrs := by
      unfold applyPredBlock
      have : ¬ getPredUse b ≤ 0 := by omega
      simp only [this, if_false]
      intro x hx
      simp only [List.mem_cons]
      right; right
      exact List.mem_flatten.mpr ⟨applyPredInstr pReg pRTmp m, List.mem_map_of_mem _ hm, hx⟩
    constructor
    · intro hq
      apply hout
      simp [applyPredInstr, hr, hp, hq]
    · intro hq
      constructor
      · apply hout
        simp [applyPredInstr, hr, hp, hq]
      · apply hout
        simp [applyPredInstr, hr, hp, hq]

/-- Witness for C3 at a concrete block: a return, an unpredicated
predicable instruction and an already-predicated instruction, with use
predicate 2, `PReg` = 5, `PRTmp` = 3. -/
theorem predication_safety_witness :
    ((applyPredBlock 5 3
        ⟨[⟨Opc.other 9, true, false, 0, 0, 0, 0, 0, 0, 0⟩,
          ⟨Opc.other 1, false, true, 0, 0, 1, 0, 0, 0, 0⟩,
          ⟨Opc.other 2, false, true, 6, 0, 2, 0, 0, 0, 0⟩], some 2⟩).instrs.filter
          (fun j => j.isReturn) =
        [⟨Opc.other 9, true, false, 0, 0, 0, 0, 0, 0, 0⟩]) ∧
      (0 < getPredUse ⟨[⟨Opc.other 9, true, false, 0, 0, 0, 0, 0, 0, 0⟩,
          ⟨Opc.other 1, false, true, 0, 0, 1, 0, 0, 0, 0⟩,
          ⟨Opc.other 2, false, true, 6, 0, 2, 0, 0, 0, 0⟩], some 2⟩) := by
  have h := predication_safety 5 3
    ⟨[⟨Opc.other 9, true, false, 0, 0, 0, 0, 0, 0, 0⟩,
      ⟨Opc.other 1, false, true, 0, 0, 1, 0, 0, 0, 0⟩,
      ⟨Opc.other 2, false, true, 6, 0, 2, 0, 0, 0, 0⟩], some 2⟩
  refine ⟨?_, by decide⟩
  rw [h.1]
  decide

/-- C10: `applyPredicates` leaves a block completely unchanged when the
block has no recorded use predicate (`getPredUse` returns -1) or when
its predicate id is 0: no instruction is rewritten and no extraction
code is prepended. -/
theorem apply_predicates_skips_unguarded (pReg pRTmp : Nat) (b : SPBlock)
    (h : b.predUse = none ∨ b.predUse = some 0) :
    applyPredBlock pReg pRTmp b = b := by
  unfold applyPredBlock
  rcases h with h | h <;> simp [getPredUse, h]

/-- Witness for C10 at concrete blocks: a block with no recorded
predicate and a block with predicate id 0 both pass through unchanged. -/
theorem apply_predicates_skips_unguarded_witness :
    applyPredBlock 5 3 ⟨[⟨Opc.other 1, false, true, 0, 0, 0, 0, 0, 0, 0⟩], none⟩ =
      ⟨[⟨Opc.other 1, false, true, 0, 0, 0, 0, 0, 0, 0⟩], none⟩ :=
  apply_predicates_skips_unguarded 5 3
    ⟨[⟨Opc.other 1, false, true, 0, 0, 0, 0, 0, 0, 0⟩], none⟩ (Or.inl rfl)

/-! ### Single-path reducer: the 32-predicate capacity check
Embeds the entry of `PatmosSPReduce::doReduceFunction`
(PatmosSPReduce.cpp lines 167-209). -/

/-- Errors the remaining reduction pipeline can raise after the
capacity check (`report_fatal_error("AnalyzeBranch failed")` in
`insertPredDefinitions`). -/
inductive RestError where
  | analyzeBranchFailed
  deriving DecidableEq, Repr

/-- Fatal errors of `doReduceFunction`: the capacity error
`report_fatal_error("Cannot handle more than 32 Predicates yet!")`, or
an error of the later pipeline stages. -/
inductive SPError where
  | tooManyPredicates
  | restFailed (e : RestError)
  deriving DecidableEq, Repr

/-- Embedding of `PatmosSPReduce::doReduceFunction`: the predicate-count
check runs first; only if `getNumPredicates() ≤ 32` does the remaining
pipeline (register selection, `insertPredDefinitions`, linearization,
`applyPredicates`, initializations, merging - abstracted here as
`rest`) run on the function. -/
def doReduceFunction (rest : List SPBlock → Except RestError (List SPBlock))
    (numPredicates : Nat) (mf : List SPBlock) : Except SPError (List SPBlock) :=
  if numPredicates > 32 then
    Except.error SPError.tooManyPredicates
  else
    match rest mf with
    | Except.ok r => Except.ok r
    | Except.error e => Except.error (SPError.restFailed e)

/-- C5: `doReduceFunction` raises the fatal capacity error exactly when
the predicate count exceeds 32; in that case nothing of the pipeline
runs (the result does not depend on `rest` or on the function), and for
a count of at most 32 the reduction proceeds, its outcome being exactly
the pipeline's outcome. -/
theorem predicate_capacity_check
    (rest : List SPBlock → Except RestError (List SPBlock))
    (numPredicates : Nat) (mf : List SPBlock) :
    (doReduceFunction rest numPredicates mf =
        Except.error SPError.tooManyPredicates ↔ 32 < numPredicates) ∧
      (numPredicates ≤ 32 →
        doReduceFunction rest numPredicates mf =
          match rest mf with
          | Except.ok r => Except.ok r
          | Except.error e => Except.error (SPError.restFailed e)) := by
  constructor
  · constructor
    · intro h
      by_contra hn
      have hle : ¬ numPredicates > 32 := hn
      unfold doReduceFunction at h
      rw [if_neg hle] at h
      cases hrest : rest mf with
      | ok r => rw [hrest] at h; cases h
      | error e => rw [hrest] at h; cases h
    · intro h
      unfold doReduceFunction
      rw [if_pos h]
  · intro h
    unfold doReduceFunction
    rw [if_neg (by omega)]

/-- Witness for C5 at concrete inputs: with 33 predicates the check
fires for any pipeline; with 32 it does not. -/
theorem predicate_capacity_check_witness :
    (doReduceFunction (fun mf => Except.ok mf) 33 [] =
        Except.error SPError.tooManyPredicates ↔ 32 < 33) ∧
      (32 ≤ 32 →
        doReduceFunction (fun mf => Except.ok mf) 32 [] =
          match (fun (mf : List SPBlock) => Except.ok (ε := RestError) mf) [] with
          | Except.ok r => Except.ok r
          | Except.error e => Except.error (SPError.restFailed e)) :=
  ⟨(predicate_capacity_check (fun mf => Except.ok mf) 33 []).1,
    fun _ => (predicate_capacity_check (fun mf => Except.ok mf) 32 []).2 (by decide)⟩

/-! ### Frame-index elimination (PatmosRegisterInfo.cpp)
Embeds `PatmosRegisterInfo::computeLargeFIOffset` (lines 168-192) and
the offset/opcode handling of `PatmosRegisterInfo::eliminateFrameIndex`
(lines 251-407). -/

/-- `llvm::isInt<N>(x)`: x fits the signed N-bit range. -/
def isIntN (n : Nat) (x : Int) : Bool :=
  decide (-(2 ^ (n - 1) : Int) ≤ x ∧ x < 2 ^ (n - 1))

/-- `llvm::isUInt<N>(x)`: x fits the unsigned N-bit range. -/
def isUIntN (n : Nat) (x : Int) : Bool :=
  decide (0 ≤ x ∧ x < 2 ^ n)

/-- Opcode of a synthesized offset-computation instruction
(`Patmos::ADDi` or `Patmos::ADDl`). -/
inductive AddOpc where
  | addi
  | addl
  deriving DecidableEq, Repr

/-- The ADD instruction emitted by `computeLargeFIOffset`:
`ADD scratchReg = basePtr + (offsetLarge << shl)` with
`scratchReg = Patmos::RTR`. -/
structure SynthAdd where
  opc : AddOpc
  dstReg : Nat
  srcReg : Nat
  imm : Int
  deriving DecidableEq, Repr

/-- Embedding of `PatmosRegisterInfo::computeLargeFIOffset`: asserts
`offset >= 0` (`none` models the assertion failure), splits the scaled
offset into `offsetLeft = 63` and the excess `offsetLarge`, emits one
ADD of `offsetLarge << shl` into `RTR`, and returns the new base
register and the remaining offset 63. -/
def computeLargeFIOffset (offset : Int) (basePtr shl : Nat) :
    Option (SynthAdd × Nat × Int) :=
  if offset < 0 then none
  else
    some (⟨if isUIntN 12 ((offset - 63) * 2 ^ shl) then AddOpc.addi else AddOpc.addl,
            rtrReg, basePtr, (offset - 63) * 2 ^ shl⟩,
          rtrReg, 63)

/-- Opcode classes of `eliminateFrameIndex` that carry a frame index:
word/half/byte memory accesses (`LWC/LWM/SWC/SWM`, `LHC/LHM/LHUC/LHUM/
SHC/SHM`, `LBC/LBM/LBUC/LBUM/SBC/SBM`, each with a 7-bit signed scaled
immediate), and `ADDi` (12-bit unsigned) / `ADDl` (32-bit). -/
inductive FIOpc where
  | memWord
  | memHalf
  | memByte
  | addi
  | addl
  deriving DecidableEq, Repr

/-- Result of rewriting one frame-index instruction: the (possibly
rewritten) opcode, the synthesized instructions placed immediately
before it, the base register operand and the immediate operand. -/
structure FIRewrite where
  opc : FIOpc
  extra : List SynthAdd
  baseReg : Nat
  offsetOut : Int
  deriving DecidableEq, Repr

/-- Embedding of the offset/opcode part of
`PatmosRegisterInfo::eliminateFrameIndex` for one instruction: `off0`
is the already-resolved byte offset (`Offset` after line 296), `disp`
the immediate operand (`FrameDisplacement`), `basePtr` the chosen base
register.  Memory accesses scale the byte offset (asserting alignment;
`none` models the assertion failure), add the displacement, and call
`computeLargeFIOffset` when the scaled offset does not fit 7 signed
bits; `ADDi` adds the displacement and is rewritten in place to `ADDl`
when the result does not fit 12 unsigned bits; `ADDl` is always in
range. -/
def eliminateFrameIndex (op : FIOpc) (off0 disp : Int) (basePtr : Nat) :
    Option FIRewrite :=
  match op with
  | FIOpc.memWord =>
      if off0 % 4 ≠ 0 then none
      else if !isIntN 7 (off0 / 4 + disp) then
        (computeLargeFIOffset (off0 / 4 + disp) basePtr 2).map
          (fun r => ⟨FIOpc.memWord, [r.1], r.2.1, r.2.2⟩)
      else some ⟨FIOpc.memWord, [], basePtr, off0 / 4 + disp⟩
  | FIOpc.memHalf =>
      if off0 % 2 ≠ 0 then none
      else if !isIntN 7 (off0 / 2 + disp) then
        (computeLargeFIOffset (off0 / 2 + disp) basePtr 1).map
          (fun r => ⟨FIOpc.memHalf, [r.1], r.2.1, r.2.2⟩)
      else some ⟨FIOpc.memHalf, [], basePtr, off0 / 2 + disp⟩
  | FIOpc.memByte =>
      if !isIntN 7 (off0 + disp) then
        (computeLargeFIOffset (off0 + disp) basePtr 0).map
          (fun r => ⟨FIOpc.memByte, [r.1], r.2.1, r.2.2⟩)
      else some ⟨FIOpc.memByte, [], basePtr, off0 + disp⟩
  | FIOpc.addi =>
      if !isUIntN 12 (off0 + disp) then
        some ⟨FIOpc.addl, [], basePtr, off0 + disp⟩
      else some ⟨FIOpc.addi, [], basePtr, off0 + disp⟩
  | FIOpc.addl =>
      some ⟨FIOpc.addl, [], basePtr, off0 + disp⟩

/-- Byte scale of a memory-access opcode class (1 << shl). -/
def memScale : FIOpc → Int
  | FIOpc.memWord => 4
  | FIOpc.memHalf => 2
  | _ => 1

/-- C7 counterexample: an `ADDi` whose offset 5000 does not fit its
12-bit unsigned immediate field synthesizes no additional ADD
instruction at all - the instruction is rewritten in place to `ADDl`
carrying the full offset - refuting the claim that every overflowing
frame-index instruction (including the 12-bit `ADDi` case) gets exactly
one synthesized ADD and a re-biased in-range immediate. -/
theorem large_offset_addi_no_synth :
    eliminateFrameIndex FIOpc.addi 5000 0 29 =
        some ⟨FIOpc.addl, [], 29, 5000⟩ ∧
      isUIntN 12 5000 = false ∧
      (eliminateFrameIndex FIOpc.addi 5000 0 29).map
        (fun r => r.extra.length) = some 0 := by
  decide

/-- C7 (amended): for the byte/half/word memory accesses, when the
scaled offset (aligned byte offset scaled down, plus displacement) does
not fit the 7-bit signed immediate field and is nonnegative, exactly
one ADD instruction is synthesized immediately before the instruction;
it computes `RTR = basePtr + excess-bytes` with
`excess-bytes = (scaled - 63) * scale`, the remaining immediate is
re-biased to the in-range value 63, and the corrected base plus the
remaining scaled offset addresses exactly the byte the original base
plus the full offset addressed.  An out-of-range `ADDi`, by contrast,
synthesizes nothing and is rewritten in place to `ADDl` keeping the
full offset. -/
theorem large_offset_rewrite (op : FIOpc) (off0 disp : Int) (basePtr : Nat)
    (hmem : op = FIOpc.memWord ∨ op = FIOpc.memHalf ∨ op = FIOpc.memByte)
    (halign : off0 % memScale op = 0)
    (hbig : isIntN 7 (off0 / memScale op + disp) = false)
    (hpos : 0 ≤ off0 / memScale op + disp) :
    (eliminateFrameIndex op off0 disp basePtr =
        some ⟨op,
          [⟨if isUIntN 12 ((off0 / memScale op + disp - 63) *
                memScale op)
            then AddOpc.addi else AddOpc.addl,
            rtrReg, basePtr,
            (off0 / memScale op + disp - 63) * memScale op⟩],
          rtrReg, 63⟩) ∧
      isIntN 7 63 = true ∧
      (∀ baseVal : Int,
        (baseVal + (off0 / memScale op + disp - 63) *
            memScale op) + 63 * memScale op =
          baseVal + off0 + disp * memScale op) ∧
      (∀ x y : Int, isUIntN 12 (x + y) = false →
        eliminateFrameIndex FIOpc.addi x y basePtr =
          some ⟨FIOpc.addl, [], basePtr, x + y⟩) := by
  have haddr : ∀ baseVal : Int,
      (baseVal + (off0 / memScale op + disp - 63) *
          memScale op) + 63 * memScale op =
        baseVal + off0 + disp * memScale op := by
    intro baseVal
    have hdvd : memScale op ∣ off0 := by
      exact Int.dvd_of_emod_eq_zero halign
    have hmul : off0 / memScale op * memScale op = off0 :=
      Int.ediv_mul_cancel hdvd
    ring_nf
    ring_nf at hmul
    rw [Int.mul_comm] at hmul
    nlinarith [hmul]
  refine ⟨?_, by decide, haddr, ?_⟩
  · have hnotneg : ¬ (off0 / memScale op + disp < 0) := by omega
    rcases hmem with h | h | h <;> subst h
    · simp only [eliminateFrameIndex, memScale] at *
      rw [if_neg (by simpa using halign), hbig]
      simp only [Bool.not_false, if_true, computeLargeFIOffset,
        if_neg hnotneg, Option.map_some]
      norm_num
    · simp only [eliminateFrameIndex, memScale] at *
      rw [if_neg (by simpa using halign), hbig]
      simp only [Bool.not_false, if_true, computeLargeFIOffset,
        if_neg hnotneg, Option.map_some]
      norm_num
    · simp only [eliminateFrameIndex, memScale, Int.ediv_one, Int.mul_one] at *
      rw [hbig]
      simp only [Bool.not_false, if_true, computeLargeFIOffset,
        if_neg hnotneg, Option.map_some]
      norm_num
  · intro x y hxy
    simp [eliminateFrameIndex, hxy]

/-- Witness for the amended C7 at a concrete input: a word access at
byte offset 1024 with displacement 0 (scaled offset 256, out of the
7-bit range). -/
theorem large_offset_rewrite_witness :
    (eliminateFrameIndex FIOpc.memWord 1024 0 29 =
        some ⟨FIOpc.memWord,
          [⟨if isUIntN 12 ((1024 / (4 : Int) + 0 - 63) * 4)
            then AddOpc.addi else AddOpc.addl, rtrReg, 29,
            (1024 / (4 : Int) + 0 - 63) * 4⟩],
          rtrReg, 63⟩) ∧
      isIntN 7 63 = true ∧
      (∀ baseVal : Int,
        (baseVal + (1024 / (4 : Int) + 0 - 63) * 4) + 63 * (4 : Int) =
          baseVal + 1024 + 0 * (4 : Int)) ∧
      (∀ x y : Int, isUIntN 12 (x + y) = false →
        eliminateFrameIndex FIOpc.addi x y 29 =
          some ⟨FIOpc.addl, [], 29, x + y⟩) := by
  have h := large_offset_rewrite FIOpc.memWord 1024 0 29
    (Or.inl rfl) (by decide) (by decide) (by decide)
  simpa [memScale] using h

/-! ### Predicate decomposition (PatmosSinglePathInfo.cpp)
Embeds `PatmosSinglePathInfo::decomposeControlDependence`
(lines 270-293 and 905-928; both versions run the identical algorithm,
once over a region's block list and once over the whole function's
block list). -/

/-- A control-dependence edge: source block (none for the synthetic
entry edge) and destination block.  Blocks are identified by their
numbers. -/
abbrev CDEdge := Option Nat × Nat

/-- A control-dependence set, one `CD_map_entry_t` (a `std::set` of
edges in the source; equality of `std::set` is set equality, hence a
`Finset` here). -/
abbrev CDSet := Finset CDEdge

/-- The linear search `for (i=0; i<K.size(); i++) if (t == K[i]) q = i`
of `decomposeControlDependence`. -/
def lookupIdx (t : CDSet) : List CDSet → Option Nat
  | [] => none
  | k :: ks => if k = t then some 0 else (lookupIdx t ks).map (· + 1)

/-- Embedding of `PatmosSinglePathInfo::decomposeControlDependence`:
iterate over the blocks; a block whose control-dependence set is
already in `K` gets that index recorded in `R`, otherwise the set is
appended to `K` and the block gets the next free id (the source's
counter `p` always equals `K.size()`, so it is not carried
separately). -/
def decomposeCD (CD : Nat → CDSet) (blocks : List Nat) :
    List CDSet × List (Nat × Nat) :=
  blocks.foldl
    (fun st b =>
      match lookupIdx (CD b) st.1 with
      | some q => (st.1, st.2 ++ [(b, q)])
      | none => (st.1 ++ [CD b], st.2 ++ [(b, st.1.length)]))
    ([], [])

/-- Lookup in the association list representing the map `R`. -/
def lookupR (R : List (Nat × Nat)) (b : Nat) : Option Nat :=
  (R.find? (fun p => p.1 == b)).map (·.2)

/-- First-occurrence deduplication: the order in which distinct
control-dependence sets are first seen. -/
def dedupFirst : List CDSet → List CDSet
  | [] => []
  | x :: xs => x :: dedupFirst (xs.filter (fun y => decide (y ≠ x)))
  termination_by l => l.length
  decreasing_by
    simp only [List.length_cons]
    exact Nat.lt_succ_of_le (List.length_filter_le _ _)

theorem lookupIdx_some (t : CDSet) (K : List CDSet) (q : Nat)
    (h : lookupIdx t K = some q) : ∃ hq : q < K.length, K.get ⟨q, hq⟩ = t := by
  induction K generalizing q with
  | nil => cases h
  | cons k ks ih =>
      unfold lookupIdx at h
      by_cases hk : k = t
      · rw [if_pos hk] at h
        cases h
        exact ⟨Nat.succ_pos _, hk⟩
      · rw [if_neg hk] at h
        cases hq : lookupIdx t ks with
        | none => rw [hq] at h; cases h
        | some q' =>
            rw [hq] at h
            have h' : q' + 1 = q := by simpa using h
            subst h'
            obtain ⟨hlt, hget⟩ := ih q' hq
            exact ⟨Nat.succ_lt_succ hlt, hget⟩

theorem lookupIdx_none (t : CDSet) (K : List CDSet)
    (h : lookupIdx t K = none) : t ∉ K := by
  induction K with
  | nil => simp
  | cons k ks ih =>
      unfold lookupIdx at h
      by_cases hk : k = t
      · rw [if_pos hk] at h; cases h
      · rw [if_neg hk] at h
        cases hq : lookupIdx t ks with
        | none =>
            intro hmem
            rcases List.mem_cons.mp hmem with rfl | hmem
            · exact hk rfl
            · exact ih hq hmem
        | some q' => rw [hq] at h; cases h

theorem lookupIdx_mem (t : CDSet) (K : List CDSet) (h : t ∈ K) :
    ∃ q, lookupIdx t K = some q := by
  cases hq : lookupIdx t K with
  | some q => exact ⟨q, rfl⟩
  | none => exact absurd h (lookupIdx_none t K hq)

theorem lookupR_append (R S : List (Nat × Nat)) (b : Nat) :
    lookupR (R ++ S) b =
      match lookupR R b with
      | some q => some q
      | none => lookupR S b := by
  unfold lookupR
  rw [List.find?_append]
  cases h : R.find? (fun p => p.1 == b) <;> simp [Option.orElse, h]

/-- The fold state invariant of `decomposeCD`: the dependence-set list
has no duplicates, every entry of `R` points at the entry of `K` that
holds its block's dependence set, and `K` extends the initial list by
the first occurrences of the dependence sets of the processed blocks
that were new. -/
def DecompInv (CD : Nat → CDSet) (K : List CDSet) (R : List (Nat × Nat)) : Prop :=
  K.Nodup ∧ ∀ p ∈ R, ∃ hq : p.2 < K.length, K.get ⟨p.2, hq⟩ = CD p.1

/-- One step of the `decomposeControlDependence` loop (factored out of
`decomposeCD` for the proofs; `decomposeCD` is definitionally the fold
of this step). -/
def decompStep (CD : Nat → CDSet) (st : List CDSet × List (Nat × Nat))
    (b : Nat) : List CDSet × List (Nat × Nat) :=
  match lookupIdx (CD b) st.1 with
  | some q => (st.1, st.2 ++ [(b, q)])
  | none => (st.1 ++ [CD b], st.2 ++ [(b, st.1.length)])

theorem decomposeCD_eq_foldl (CD : Nat → CDSet) (blocks : List Nat) :
    decomposeCD CD blocks = blocks.foldl (decompStep CD) ([], []) := rfl

theorem decomp_keys (CD : Nat → CDSet) (blocks : List Nat)
    (K : List CDSet) (R : List (Nat × Nat)) :
    (blocks.foldl (decompStep CD) (K, R)).2.map Prod.fst =
      R.map Prod.fst ++ blocks := by
  induction blocks generalizing K R with
  | nil => simp
  | cons b rest ih =>
      simp only [List.foldl_cons]
      cases hl : lookupIdx (CD b) K with
      | some q =>
          simp only [decompStep, hl]
          rw [ih]
          simp
      | none =>
          simp only [decompStep, hl]
          rw [ih]
          simp

theorem decomp_inv (CD : Nat → CDSet) (blocks : List Nat)
    (K : List CDSet) (R : List (Nat × Nat))
    (hnd : K.Nodup)
    (hR : ∀ p ∈ R, ∃ hq : p.2 < K.length, K.get ⟨p.2, hq⟩ = CD p.1) :
    (blocks.foldl (decompStep CD) (K, R)).1.Nodup ∧
      (∀ p ∈ (blocks.foldl (decompStep CD) (K, R)).2,
        ∃ hq : p.2 < (blocks.foldl (decompStep CD) (K, R)).1.length,
          (blocks.foldl (decompStep CD) (K, R)).1.get ⟨p.2, hq⟩ = CD p.1) ∧
      (blocks.foldl (decompStep CD) (K, R)).1 =
        K ++ dedupFirst ((blocks.map CD).filter (fun t => decide (t ∉ K))) := by
  induction blocks generalizing K R with
  | nil =>
      refine ⟨hnd, hR, by simp [dedupFirst]⟩
  | cons b rest ih =>
      simp only [List.foldl_cons]
      cases hl : lookupIdx (CD b) K with
      | some q =>
          have hKb : CD b ∈ K := by
            obtain ⟨hq, hget⟩ := lookupIdx_some (CD b) K q hl
            exact hget ▸ List.mem_iff_get.mpr ⟨⟨q, hq⟩, rfl⟩
          have hR' : ∀ p ∈ R ++ [(b, q)],
              ∃ hq : p.2 < K.length, K.get ⟨p.2, hq⟩ = CD p.1 := by
            intro p hp
            rcases List.mem_append.mp hp with hp | hp
            · exact hR p hp
            · rcases List.mem_singleton.mp hp with rfl
              exact lookupIdx_some (CD b) K q hl
          obtain ⟨h1, h2, h3⟩ := ih K (R ++ [(b, q)]) hnd hR'
          refine ⟨by simpa [decompStep, hl] using h1,
            by simpa [decompStep, hl] using h2, ?_⟩
          simp only [decompStep, hl]
          rw [h3]
          congr 1
          simp only [List.map_cons, List.filter_cons]
          rw [if_neg (by simpa using hKb)]
      | none =>
          have hKb : CD b ∉ K := lookupIdx_none (CD b) K hl
          have hnd' : (K ++ [CD b]).Nodup := by
            simp [List.nodup_append, hnd, hKb]
          have hR' : ∀ p ∈ R ++ [(b, K.length)],
              ∃ hq : p.2 < (K ++ [CD b]).length,
                (K ++ [CD b]).get ⟨p.2, hq⟩ = CD p.1 := by
            intro p hp
            rcases List.mem_append.mp hp with hp | hp
            · obtain ⟨hq, hget⟩ := hR p hp
              refine ⟨by simp; omega, ?_⟩
              simp only [List.get_eq_getElem] at hget ⊢
              rw [List.getElem_append_left hq]
              exact hget
            · rcases List.mem_singleton.mp hp with rfl
              refine ⟨by simp, ?_⟩
              simp only [List.get_eq_getElem]
              rw [List.getElem_append_right (by omega)]
              simp
          obtain ⟨h1, h2, h3⟩ := ih (K ++ [CD b]) (R ++ [(b, K.length)]) hnd' hR'
          refine ⟨by simpa [decompStep, hl] using h1,
            by simpa [decompStep, hl] using h2, ?_⟩
          simp only [decompStep, hl]
          rw [h3]
          simp only [List.map_cons, List.filter_cons]
          rw [if_pos (by simpa using hKb)]
          rw [List.append_assoc]
          simp only [List.cons_append, List.nil_append, dedupFirst]
          congr 2
          rw [List.filter_filter]
          congr 1
          apply List.filter_congr
          intro x hx
          simp only [List.mem_append, List.mem_singleton, decide_not]
          by_cases h1x : x = CD b
          · subst h1x
            simp
          · by_cases h2x : x ∈ K
            · simp [h1x, h2x]
            · simp [h1x, h2x]

theorem lookupR_found (R : List (Nat × Nat)) (b q : Nat)
    (h : lookupR R b = some q) : (b, q) ∈ R := by
  unfold lookupR at h
  cases hf : R.find? (fun p => p.1 == b) with
  | none => rw [hf] at h; cases h
  | some p =>
      rw [hf] at h
      have h' : p.2 = q := by simpa using h
      have hmem := List.mem_of_find?_eq_some hf
      have hkey : p.1 = b := by simpa using List.find?_some hf
      have hpq : p = (b, q) := by
        cases p with
        | mk p1 p2 => simp_all
      exact hpq ▸ hmem

theorem lookupR_total (R : List (Nat × Nat)) (b : Nat)
    (h : b ∈ R.map Prod.fst) : ∃ q, lookupR R b = some q := by
  induction R with
  | nil => simp at h
  | cons p rest ih =>
      by_cases hb : p.1 = b
      · exact ⟨p.2, by unfold lookupR; rw [List.find?_cons_of_pos _ (by simp [hb])]; rfl⟩
      · simp only [List.map_cons, List.mem_cons] at h
        rcases h with h | h
        · exact absurd h.symm hb
        · obtain ⟨q, hq⟩ := ih h
          refine ⟨q, ?_⟩
          unfold lookupR at hq ⊢
          rw [List.find?_cons_of_neg _ (by simp [hb])]
          exact hq

/-- C1: two blocks visited by `decomposeControlDependence` receive the
same predicate id exactly when their control-dependence sets are equal
as sets, and the list `K` of dependence sets (whose indices are the
predicate ids) is the first-seen-order deduplication of the visited
blocks' dependence sets, so ids are handed out in first-seen visitation
order. -/
theorem decompose_partition (CD : Nat → CDSet) (blocks : List Nat)
    (b1 b2 : Nat) (h1 : b1 ∈ blocks) (h2 : b2 ∈ blocks) :
    (lookupR (decomposeCD CD blocks).2 b1 =
        lookupR (decomposeCD CD blocks).2 b2 ↔ CD b1 = CD b2) ∧
      (decomposeCD CD blocks).1 = dedupFirst (blocks.map CD) := by
  have hkeys := decomp_keys CD blocks [] []
  have hinv := decomp_inv CD blocks [] [] List.nodup_nil (by intro p hp; cases hp)
  rw [decomposeCD_eq_foldl]
  obtain ⟨hnd, hmem, hK⟩ := hinv
  simp only [List.nil_append] at hkeys
  have hKid : (blocks.foldl (decompStep CD) ([], [])).1 =
      dedupFirst (blocks.map CD) := by
    rw [hK]
    have : (blocks.map CD).filter (fun t => decide (t ∉ ([] : List CDSet))) =
        blocks.map CD := by
      apply List.filter_eq_self.mpr
      intro t _
      simp
    rw [this, List.nil_append]
  refine ⟨?_, hKid⟩
  obtain ⟨q1, hq1⟩ := lookupR_total _ b1 (by rw [hkeys]; exact h1)
  obtain ⟨q2, hq2⟩ := lookupR_total _ b2 (by rw [hkeys]; exact h2)
  obtain ⟨hlt1, hget1⟩ := hmem _ (lookupR_found _ b1 q1 hq1)
  obtain ⟨hlt2, hget2⟩ := hmem _ (lookupR_found _ b2 q2 hq2)
  rw [hq1, hq2]
  constructor
  · intro heq
    have : q1 = q2 := by simpa using heq
    subst this
    rw [← hget1, ← hget2]
  · intro heq
    have hgg : (blocks.foldl (decompStep CD) ([], [])).1.get ⟨q1, hlt1⟩ =
        (blocks.foldl (decompStep CD) ([], [])).1.get ⟨q2, hlt2⟩ := by
      rw [hget1, hget2, heq]
    have := (List.Nodup.get_inj_iff hnd).mp hgg
    simp only [Fin.mk.injEq] at this
    rw [this]

/-- Witness for C1 at a concrete input: the diamond CFG 0 → {1,2} → 3
with its control-dependence sets; blocks 0 and 3 share id 0, blocks 1
and 2 get ids 1 and 2, and the id map matches set equality. -/
theorem decompose_partition_witness :
    (lookupR (decomposeCD
        (fun b => if b = 1 then {(some 0, 1)}
          else if b = 2 then {(some 0, 2)} else {(none, 0)})
        [0, 1, 2, 3]).2 0 =
      lookupR (decomposeCD
        (fun b => if b = 1 then {(some 0, 1)}
          else if b = 2 then {(some 0, 2)} else {(none, 0)})
        [0, 1, 2, 3]).2 3 ↔
      (fun (b : Nat) => if b = 1 then ({(some 0, 1)} : CDSet)
          else if b = 2 then {(some 0, 2)} else {(none, 0)}) 0 =
        (fun (b : Nat) => if b = 1 then ({(some 0, 1)} : CDSet)
          else if b = 2 then {(some 0, 2)} else {(none, 0)}) 3) ∧
      (decomposeCD
        (fun b => if b = 1 then {(some 0, 1)}
          else if b = 2 then {(some 0, 2)} else {(none, 0)})
        [0, 1, 2, 3]).1 =
        dedupFirst ([0, 1, 2, 3].map
          (fun b => if b = 1 then {(some 0, 1)}
            else if b = 2 then {(some 0, 2)} else {(none, 0)})) :=
  decompose_partition
    (fun b => if b = 1 then {(some 0, 1)}
      else if b = 2 then {(some 0, 2)} else {(none, 0)})
    [0, 1, 2, 3] 0 3 (by decide) (by decide)



/-! ### Post-RA bundling scheduler (PatmosSchedStrategy.cpp)
Embeds `PatmosLatencyQueue::addToBundle` (lines 212-256).  The helpers
`PII.getIssueWidth` and `PII.canIssueInSlot` live in
PatmosInstrInfo.cpp, which is not among the sources; they are kept as
parameters `width` and `canIssue` of the embedding, constrained in the
theorems by the spec-level facts about them (each instruction costs at
least one slot and at most the full issue width; an ALUl-format
instruction is double-wide, costing the full issue width). -/

/-- A scheduling unit: its instruction is either inline assembly, an
ALUl-format (32-bit-immediate) instruction, or an ordinary one. -/
structure SUnitM where
  idnum : Nat
  inlineAsm : Bool
  alul : Bool
  deriving DecidableEq, Repr

/-- Result of one `addToBundle` attempt: the instruction was added (new
bundle and new width returned), rejected (`return false`), or the
`assert(!Bundle.empty() && ...)` failed. -/
inductive AddRes where
  | crash
  | rejected
  | added (bundle : List SUnitM) (w : Nat)
  deriving DecidableEq, Repr

/-- Embedding of `PatmosLatencyQueue::addToBundle`: the width check
(skipped for an empty bundle), the inline-assembly singleton rule, the
natural-slot attempt at slot `Bundle.size()`, and the slot-0 swap
fallback for a 2-slot VLIW (`Bundle[0]` is `bundle.headD su`, only read
when the bundle is nonempty). -/
def addToBundle (width : SUnitM → Nat) (canIssue : SUnitM → Nat → Bool)
    (issueWidth : Nat) (bundle : List SUnitM) (su : SUnitM) (currWidth : Nat) :
    AddRes :=
  if bundle ≠ [] ∧ issueWidth < currWidth + width su then AddRes.rejected
  else if su.inlineAsm then
    if bundle ≠ [] then AddRes.rejected
    else AddRes.added [su] issueWidth
  else if canIssue su bundle.length then
    AddRes.added (bundle ++ [su]) (currWidth + width su)
  else if bundle = [] then AddRes.crash
  else if canIssue su 0 && canIssue (bundle.headD su) bundle.length then
    AddRes.added (su :: bundle.tail ++ [bundle.headD su]) (currWidth + width su)
  else AddRes.rejected

/-- Bundle states reachable by `selectBundle`: it starts from the empty
bundle with width 0 (`unsigned CurrWidth = 0; assert(Bundle.empty())`)
and only ever grows the bundle through successful `addToBundle` calls
(both of its loops go through `addToBundle`). -/
inductive BundleReach (width : SUnitM → Nat) (canIssue : SUnitM → Nat → Bool)
    (issueWidth : Nat) : List SUnitM → Nat → Prop where
  | empty : BundleReach width canIssue issueWidth [] 0
  | step {b w su b' w'} :
      BundleReach width canIssue issueWidth b w →
      addToBundle width canIssue issueWidth b su w = AddRes.added b' w' →
      BundleReach width canIssue issueWidth b' w'

/-- Total issue-width cost of a bundle. -/
def bundleCost (width : SUnitM → Nat) (b : List SUnitM) : Nat :=
  (b.map width).sum

theorem bundleCost_append (width : SUnitM → Nat) (l1 l2 : List SUnitM) :
    bundleCost width (l1 ++ l2) = bundleCost width l1 + bundleCost width l2 := by
  simp [bundleCost]

theorem length_le_bundleCost (width : SUnitM → Nat)
    (h1 : ∀ su, 1 ≤ width su) (b : List SUnitM) :
    b.length ≤ bundleCost width b := by
  induction b with
  | nil => simp [bundleCost]
  | cons x xs ih =>
      have := h1 x
      simp only [bundleCost, List.map_cons, List.sum_cons, List.length_cons]
      simp only [bundleCost] at ih
      omega

/-- The invariant maintained by reachable bundle states: the recorded
running width bounds the bundle's total cost and never exceeds the
issue width, the empty bundle has width 0, an inline-assembly or ALUl
instruction is alone in its bundle, and an inline-assembly bundle has
its running width forced to the full issue width. -/
def BundleInv (width : SUnitM → Nat) (issueWidth : Nat)
    (b : List SUnitM) (w : Nat) : Prop :=
  bundleCost width b ≤ w ∧ w ≤ issueWidth ∧ (b = [] → w = 0) ∧
    (∀ su ∈ b, su.inlineAsm = true ∨ su.alul = true → b = [su]) ∧
    (∀ su ∈ b, su.inlineAsm = true → w = issueWidth)

theorem addToBundle_inv (width : SUnitM → Nat) (canIssue : SUnitM → Nat → Bool)
    (issueWidth : Nat)
    (h1 : ∀ su, 1 ≤ width su) (h2 : ∀ su, width su ≤ issueWidth)
    (h3 : ∀ su, su.alul = true → width su = issueWidth)
    (b : List SUnitM) (su : SUnitM) (w : Nat) (b' : List SUnitM) (w' : Nat)
    (hinv : BundleInv width issueWidth b w)
    (hstep : addToBundle width canIssue issueWidth b su w = AddRes.added b' w') :
    BundleInv width issueWidth b' w' := by
  obtain ⟨hc, hw, hemp, hiso, hasmW⟩ := hinv
  unfold addToBundle at hstep
  by_cases hb : b = []
  · subst hb
    have hw0 : w = 0 := hemp rfl
    subst hw0
    rw [if_neg (by simp)] at hstep
    by_cases hasm : su.inlineAsm
    · rw [if_pos hasm, if_neg (by simp)] at hstep
      obtain ⟨hb', hw'⟩ := AddRes.added.inj hstep
      subst hb'; subst hw'
      refine ⟨by simpa [bundleCost] using h2 su, le_refl _, by simp, ?_, ?_⟩
      · intro x hx _
        rcases List.mem_singleton.mp hx with rfl
        rfl
      · intro x hx _
        rfl
    · rw [if_neg (by simpa using hasm)] at hstep
      by_cases hci : canIssue su ([] : List SUnitM).length
      · rw [if_pos hci] at hstep
        obtain ⟨hb', hw'⟩ := AddRes.added.inj hstep
        subst hb'; subst hw'
        refine ⟨by simp [bundleCost], by simpa using h2 su, by simp, ?_, ?_⟩
        · intro x hx _
          simp only [List.nil_append, List.mem_singleton] at hx
          rcases hx with rfl
          rfl
        · intro x hx hxasm
          simp only [List.nil_append, List.mem_singleton] at hx
          rcases hx with rfl
          exact absurd hxasm (by simpa using hasm)
      · rw [if_neg hci, if_pos rfl] at hstep
        cases hstep
  · rcases List.exists_cons_of_ne_nil hb with ⟨hd, tl, rfl⟩
    by_cases hwide : issueWidth < w + width su
    · rw [if_pos ⟨by simp, hwide⟩] at hstep
      cases hstep
    · rw [if_neg (fun hcontra => hwide hcontra.2)] at hstep
      have hfit : w + width su ≤ issueWidth := by omega
      have hwpos : 1 ≤ w := by
        have hlen : 1 ≤ bundleCost width (hd :: tl) :=
          le_trans (by simp) (length_le_bundleCost width h1 (hd :: tl))
        omega
      have hflag : ∀ x ∈ hd :: tl, x.inlineAsm = true ∨ x.alul = true → False := by
        intro x hx hf
        rcases hf with hf | hf
        · have := hasmW x hx hf
          have := h1 su
          omega
        · have hxw := h3 x hf
          have hsingle := hiso x hx (Or.inr hf)
          rw [hsingle] at hc
          simp only [bundleCost, List.map_cons, List.map_nil, List.sum_cons,
            List.sum_nil, Nat.add_zero] at hc
          have := h1 su
          omega
      by_cases hasm : su.inlineAsm
      · rw [if_pos hasm, if_pos (by simp)] at hstep
        cases hstep
      · rw [if_neg (by simpa using hasm)] at hstep
        have hsualul : su.alul = true → False := by
          intro hf
          have := h3 su hf
          omega
        by_cases hci : canIssue su (hd :: tl).length
        · rw [if_pos hci] at hstep
          obtain ⟨hb', hw'⟩ := AddRes.added.inj hstep
          subst hb'; subst hw'
          refine ⟨?_, hfit, by simp, ?_, ?_⟩
          · rw [bundleCost_append]
            have : bundleCost width [su] = width su := by simp [bundleCost]
            omega
          · intro x hx hxf
            rcases List.mem_append.mp hx with hx | hx
            · exact absurd (hflag x hx hxf) not_false
            · rcases List.mem_singleton.mp hx with rfl
              rcases hxf with hxf | hxf
              · exact absurd hxf (by simpa using hasm)
              · exact absurd (hsualul hxf) not_false
          · intro x hx hxasm
            rcases List.mem_append.mp hx with hx | hx
            · exact absurd (hflag x hx (Or.inl hxasm)) not_false
            · rcases List.mem_singleton.mp hx with rfl
              exact absurd hxasm (by simpa using hasm)
        · rw [if_neg hci, if_neg (by simp)] at hstep
          by_cases hsw : canIssue su 0 && canIssue ((hd :: tl).headD su)
              (hd :: tl).length
          · rw [if_pos hsw] at hstep
            obtain ⟨hb', hw'⟩ := AddRes.added.inj hstep
            subst hb'; subst hw'
            refine ⟨?_, hfit, by simp, ?_, ?_⟩
            · have heq : bundleCost width
                  (su :: (hd :: tl).tail ++ [(hd :: tl).headD su]) =
                  bundleCost width (hd :: tl) + width su := by
                simp only [List.headD_cons, List.tail_cons, bundleCost,
                  List.map_cons, List.map_append, List.map_nil, List.sum_cons,
                  List.sum_append, List.sum_nil]
                omega
              omega
            · intro x hx hxf
              simp only [List.headD_cons, List.tail_cons] at hx
              rcases List.mem_cons.mp hx with rfl | hx
              · rcases hxf with hxf | hxf
                · exact absurd hxf (by simpa using hasm)
                · exact absurd (hsualul hxf) not_false
              · rcases List.mem_append.mp hx with hx | hx
                · exact absurd (hflag x (List.mem_cons_of_mem hd hx) hxf) not_false
                · rcases List.mem_singleton.mp hx with rfl
                  exact absurd (hflag x (List.mem_cons_self x tl) hxf) not_false
            · intro x hx hxasm
              simp only [List.headD_cons, List.tail_cons] at hx
              rcases List.mem_cons.mp hx with rfl | hx
              · exact absurd hxasm (by simpa using hasm)
              · rcases List.mem_append.mp hx with hx | hx
                · exact absurd (hflag x (List.mem_cons_of_mem hd hx)
                    (Or.inl hxasm)) not_false
                · rcases List.mem_singleton.mp hx with rfl
                  exact absurd (hflag x (List.mem_cons_self x tl)
                    (Or.inl hxasm)) not_false
          · rw [if_neg hsw] at hstep
            cases hstep

theorem bundleReach_inv (width : SUnitM → Nat) (canIssue : SUnitM → Nat → Bool)
    (issueWidth : Nat)
    (h1 : ∀ su, 1 ≤ width su) (h2 : ∀ su, width su ≤ issueWidth)
    (h3 : ∀ su, su.alul = true → width su = issueWidth)
    (b : List SUnitM) (w : Nat)
    (hreach : BundleReach width canIssue issueWidth b w) :
    BundleInv width issueWidth b w := by
  induction hreach with
  | empty => exact ⟨by simp [bundleCost], by simp, fun _ => rfl, by simp, by simp⟩
  | step hr hs ih =>
      exact addToBundle_inv width canIssue issueWidth h1 h2 h3 _ _ _ _ _ ih hs

/-- C6: under the spec-level facts about the issue-width helpers (every
instruction costs between one slot and the full issue width, and an
ALUl-format instruction is double-wide, costing the full issue width),
every bundle state the scheduler can build by successive `addToBundle`
calls is legal: the sum of the per-instruction issue-width costs never
exceeds the issue width, and an inline-assembly or ALUl instruction
never shares its bundle with any other instruction.  Moreover
`addToBundle` performs the slot swap exactly as specified: an
instruction that fits the width but not its natural slot, while fitting
slot 0 with the current slot-0 occupant able to move to the attempted
slot, is placed at slot 0 and the old occupant is appended at the
attempted slot. -/
theorem bundle_legality (width : SUnitM → Nat) (canIssue : SUnitM → Nat → Bool)
    (issueWidth : Nat)
    (h1 : ∀ su, 1 ≤ width su) (h2 : ∀ su, width su ≤ issueWidth)
    (h3 : ∀ su, su.alul = true → width su = issueWidth)
    (b : List SUnitM) (w : Nat)
    (hreach : BundleReach width canIssue issueWidth b w) :
    (bundleCost width b ≤ issueWidth ∧
      ∀ su ∈ b, su.inlineAsm = true ∨ su.alul = true → b = [su]) ∧
      (∀ (hd : SUnitM) (tl : List SUnitM) (su : SUnitM) (w0 : Nat),
        su.inlineAsm = false →
        w0 + width su ≤ issueWidth →
        canIssue su (hd :: tl).length = false →
        canIssue su 0 = true →
        canIssue hd (hd :: tl).length = true →
        addToBundle width canIssue issueWidth (hd :: tl) su w0 =
          AddRes.added (su :: tl ++ [hd]) (w0 + width su)) := by
  obtain ⟨hc, hw, -, hiso, -⟩ :=
    bundleReach_inv width canIssue issueWidth h1 h2 h3 b w hreach
  refine ⟨⟨le_trans hc hw, hiso⟩, ?_⟩
  intro hd tl su w0 hasm hfit hci hc0 hchd
  have hci2 : canIssue su (tl.length + 1) = false := by simpa using hci
  have hchd2 : canIssue hd (tl.length + 1) = true := by simpa using hchd
  unfold addToBundle
  rw [if_neg (fun hcontra => by omega : ¬((hd :: tl) ≠ [] ∧
      issueWidth < w0 + width su)), if_neg (by simp [hasm]),
    if_neg (by simp [hci2]), if_neg (by simp),
    if_pos (by simp [hc0, hchd2])]
  simp

/-- Witness for C6 at a concrete input: issue width 2, ALUl and inline
assembly double-wide, two unit-width ordinary instructions bundled in
two `addToBundle` steps. -/
theorem bundle_legality_witness :
    ((bundleCost (fun su => if su.alul = true then 2 else 1)
        [⟨0, false, false⟩, ⟨1, false, false⟩] ≤ 2 ∧
      ∀ su ∈ ([⟨0, false, false⟩, ⟨1, false, false⟩] : List SUnitM),
        su.inlineAsm = true ∨ su.alul = true →
          ([⟨0, false, false⟩, ⟨1, false, false⟩] : List SUnitM) = [su]) ∧
      (∀ (hd : SUnitM) (tl : List SUnitM) (su : SUnitM) (w0 : Nat),
        su.inlineAsm = false →
        w0 + (if su.alul = true then 2 else 1) ≤ 2 →
        (fun (_ : SUnitM) (_ : Nat) => true) su (hd :: tl).length = false →
        (fun (_ : SUnitM) (_ : Nat) => true) su 0 = true →
        (fun (_ : SUnitM) (_ : Nat) => true) hd (hd :: tl).length = true →
        addToBundle (fun su => if su.alul = true then 2 else 1)
            (fun _ _ => true) 2 (hd :: tl) su w0 =
          AddRes.added (su :: tl ++ [hd])
            (w0 + (if su.alul = true then 2 else 1)))) := by
  have r1 : BundleReach (fun su => if su.alul = true then 2 else 1)
      (fun _ _ => true) 2 [⟨0, false, false⟩] 1 :=
    @BundleReach.step (fun su => if su.alul = true then 2 else 1)
      (fun _ _ => true) 2 [] 0 ⟨0, false, false⟩ [⟨0, false, false⟩] 1
      BundleReach.empty (by decide)
  have r2 : BundleReach (fun su => if su.alul = true then 2 else 1)
      (fun _ _ => true) 2 [⟨0, false, false⟩, ⟨1, false, false⟩] 2 :=
    @BundleReach.step (fun su => if su.alul = true then 2 else 1)
      (fun _ _ => true) 2 [⟨0, false, false⟩] 1 ⟨1, false, false⟩
      [⟨0, false, false⟩, ⟨1, false, false⟩] 2 r1 (by decide)
  exact bundle_legality (fun su => if su.alul = true then 2 else 1)
    (fun _ _ => true) 2
    (fun su => by by_cases hs : su.alul = true <;> simp [hs])
    (fun su => by by_cases hs : su.alul = true <;> simp [hs])
    (fun su hs => by simp [hs])
    [⟨0, false, false⟩, ⟨1, false, false⟩] 2 r2

/-! ### Post-RA scheduler: pruning implicit deps on calls/returns
Embeds `PatmosPostRASchedStrategy::removeImplicitCFLDeps` and
`isExplicitCFLOperand` (PatmosSchedStrategy.cpp lines 475-565) together
with the call/return handling of `postprocessDAG` (lines 312-367). -/

/-- One machine operand as the dependency pruning sees it. -/
structure MOper where
  isRegOp : Bool
  regNo : Nat
  isDefOp : Bool
  isImplicitOp : Bool
  deriving DecidableEq, Repr

/-- Register numbers of `Patmos::SRB/SRO/SXB/SXO` (the return-info
special registers the pruning never treats as convention-only; concrete
enum values are immaterial, only their identity is used). -/
def srbReg : Nat := 40
def sroReg : Nat := 41
def sxbReg : Nat := 42
def sxoReg : Nat := 43

/-- Embedding of `PatmosPostRASchedStrategy::isExplicitCFLOperand`: an
operand is explicit unless it is an implicit operand of a register
other than SRB/SRO/SXB/SXO. -/
def isExplicitCFLOperand (mo : MOper) : Bool :=
  if !mo.isImplicitOp then true
  else decide (mo.regNo = srbReg ∨ mo.regNo = sroReg ∨
    mo.regNo = sxbReg ∨ mo.regNo = sxoReg)

/-- Kinds of scheduling dependencies (`SDep::Kind`). -/
inductive DepKind where
  | data
  | anti
  | output
  | order
  deriving DecidableEq, Repr

/-- One predecessor edge of the call/return `SUnit`: the predecessor
unit (none models a null `getSUnit()`), the kind, and the register
carried by the edge (meaningful for data deps). -/
structure SDepE where
  predIdx : Option Nat
  kind : DepKind
  depReg : Nat
  deriving DecidableEq, Repr

/-- Embedding of the `IsImplicit` computation of
`removeImplicitCFLDeps` for one dependency edge: the loop over the
call/return's operands `MI->getOperand(i)`.  For a data dep, a matching
explicitly-used register breaks out with `IsImplicit = false`.  For an
anti/output dep at an explicit def operand, the inner loop over the
predecessor's operands runs `PredMI->getNumOperands()` times but reads
`PredMI->getOperand(i)` - the outer index, as in the source, whose
inner loop variable `j` is never used - so only the predecessor operand
at position `i` is ever inspected (and reading past the predecessor's
operand list, `none` here, is out-of-bounds in the source).  Returns
`some IsImplicit` or `none` for the out-of-bounds access. -/
def checkImplicitGo (predOps : List MOper) (dep : SDepE) :
    List MOper → Nat → Bool → Option Bool
  | [], _, impl => some impl
  | mo :: rest, i, impl =>
    if !mo.isRegOp then checkImplicitGo predOps dep rest (i + 1) impl
    else if !isExplicitCFLOperand mo then
      checkImplicitGo predOps dep rest (i + 1) impl
    else if dep.kind = DepKind.data then
      if mo.regNo = dep.depReg then some false
      else checkImplicitGo predOps dep rest (i + 1) impl
    else if mo.isDefOp && !mo.isImplicitOp then
      if predOps.length = 0 then checkImplicitGo predOps dep rest (i + 1) impl
      else if hp : i < predOps.length then
        if (predOps.get ⟨i, hp⟩).isRegOp &&
            decide ((predOps.get ⟨i, hp⟩).regNo = mo.regNo) then
          checkImplicitGo predOps dep rest (i + 1) false
        else checkImplicitGo predOps dep rest (i + 1) impl
      else none
    else checkImplicitGo predOps dep rest (i + 1) impl

/-- Embedding of the `IsImplicit` computation of
`removeImplicitCFLDeps` for one dependency edge: the loop over the
call/return's operands `MI->getOperand(i)` (realized by walking the
operand list with its index).  For a data dep, a matching
explicitly-used register breaks out with `IsImplicit = false`.  For an
anti/output dep at an explicit def operand, the inner loop over the
predecessor's operands runs `PredMI->getNumOperands()` times but reads
`PredMI->getOperand(i)` - the outer index, as in the source, whose
inner loop variable `j` is never used - so only the predecessor operand
at position `i` is ever inspected (and reading past the predecessor's
operand list, `none` here, is out-of-bounds in the source).  Returns
`some IsImplicit` or `none` for the out-of-bounds access. -/
def checkImplicit (miOps predOps : List MOper) (dep : SDepE) : Option Bool :=
  checkImplicitGo predOps dep miOps 0 true

/-- Decision for one dependency edge of the call/return: edges with no
predecessor unit and `Order` edges are kept (`continue`); otherwise the
operand scan decides.  `some true` means the edge is removed and
re-attached to the exit node, `some false` means it is kept, `none`
models the out-of-bounds operand access. -/
def depRemoved (miOps : List MOper) (instrOf : Nat → List MOper)
    (dep : SDepE) : Option Bool :=
  match dep.predIdx with
  | none => some false
  | some pid =>
      if dep.kind = DepKind.order then some false
      else checkImplicit miOps (instrOf pid) dep

/-- Embedding of `PatmosPostRASchedStrategy::removeImplicitCFLDeps`:
partitions the dependency edges of the call/return into the kept ones
and the removed ones (the latter are re-attached to the exit node with
an artificial latency edge). -/
def removeImplicitCFLDeps (miOps : List MOper) (instrOf : Nat → List MOper) :
    List SDepE → Option (List SDepE × List SDepE)
  | [] => some ([], [])
  | d :: ds =>
      match depRemoved miOps instrOf d, removeImplicitCFLDeps miOps instrOf ds with
      | some r, some (kept, removed) =>
          some (if r then (kept, d :: removed) else (d :: kept, removed))
      | _, _ => none

/-- C9, failing input: the call instruction has the single explicit def
operand `r5`; its predecessor (unit 0) reads `r5` at operand position 1
(position 0 is a non-register operand); the anti dependency between
them carries `r5`.  Because the inner loop of the source reads
`PredMI->getOperand(i)` with the outer index `i` (its loop variable `j`
is unused), only the predecessor's operand 0 is inspected, the use of
`r5` at operand 1 is missed, and the edge - whose register is a real
explicit operand of the call - is removed and re-attached to the exit
node instead of being kept. -/
theorem remove_cfl_deps_bug :
    removeImplicitCFLDeps
        [⟨true, 5, true, false⟩]
        (fun _ => [⟨false, 0, false, false⟩, ⟨true, 5, false, false⟩])
        [⟨some 0, DepKind.anti, 5⟩] =
      some ([], [⟨some 0, DepKind.anti, 5⟩]) := by
  decide

/-! ### Control-dependence builder (PatmosSinglePathInfo.cpp)
Embeds `PatmosSinglePathInfo::computeControlDependence` (lines 850-901;
the per-region variant at lines 218-267 runs the same loops restricted
to one region's blocks, with the entry edge injected for the top-level
region).  The post-dominator tree is given by its immediate-dominator
function `ipdom` (`getIDom`, `none` at the tree root); walks along the
tree are fuel-bounded, and a rank function certifies in the theorems
that the fuel suffices, so the fuel-bounded walks agree with the
source's unbounded pointer walks. -/

/-- The chain of tree nodes from `b` up to the root, `b` included: the
reflexive set of post-dominators of `b`. -/
def chainAux (ipdom : Nat → Option Nat) : Nat → Nat → List Nat
  | 0, _ => []
  | fuel + 1, b =>
      b :: (match ipdom b with
            | none => []
            | some p => chainAux ipdom fuel p)

/-- Embedding of the walk
`for (t = PDT[dst]; t != stop; t = t->getIDom()) ...` collecting the
visited blocks: from `t` up to, but not including, `stop` (`none` is
the null node past the root). -/
def walkUp (ipdom : Nat → Option Nat) : Nat → Option Nat → Option Nat → List Nat
  | 0, _, _ => []
  | fuel + 1, t, stop =>
      if t = stop then []
      else
        match t with
        | none => []
        | some b => b :: walkUp ipdom fuel (ipdom b) stop

/-- A control-flow graph for the analysis: block list, successor map
and entry block (`MF.front()`). -/
structure CFGm where
  blocks : List Nat
  succ : Nat → List Nat
  entry : Nat

/-- `PDT.dominates(a, b)`: `a` post-dominates `b`, i.e. `a` lies on the
post-dominator-tree chain from `b` to the root. -/
def pdomRel (ipdom : Nat → Option Nat) (fuel a b : Nat) : Prop :=
  a ∈ chainAux ipdom fuel b

instance (ipdom : Nat → Option Nat) (fuel a b : Nat) :
    Decidable (pdomRel ipdom fuel a b) := by
  unfold pdomRel; infer_instance

/-- Embedding of the insertion sequence of `computeControlDependence`:
for every block `src` and CFG successor `dst` not post-dominating
`src`, the edge `(src, dst)` is inserted into `CD[t]` for every `t` on
the walk from `dst` up to (excluding) `getIDom(src)`; afterwards the
synthetic entry edge `(none, entry)` is inserted into `CD[t]` for every
`t` on the walk from the entry block to the null node.  The list
collects the (block, edge) insertion pairs in loop order. -/
def cdInserts (g : CFGm) (ipdom : Nat → Option Nat) (fuel : Nat) :
    List (Nat × CDEdge) :=
  ((g.blocks.map (fun src =>
      ((g.succ src).map (fun dst =>
        if pdomRel ipdom fuel dst src then []
        else (walkUp ipdom fuel (some dst) (ipdom src)).map
          (fun t => (t, ((some src : Option Nat), dst))))).flatten)).flatten)
  ++ (walkUp ipdom fuel (some g.entry) none).map
      (fun t => (t, ((none : Option Nat), g.entry)))

/-- The control-dependence set of block `B` as computed by
`computeControlDependence` (as a list of inserted edges; the source
stores a `std::set`, so membership is the meaningful notion). -/
def computeCD (g : CFGm) (ipdom : Nat → Option Nat) (fuel B : Nat) :
    List CDEdge :=
  (cdInserts g ipdom fuel).filterMap
    (fun p => if p.1 = B then some p.2 else none)

/-- The spec-side characterization of one edge of `CD[B]` (claim C2): a
non-synthetic edge `(s, d)` is present iff `d` is a CFG successor of
`s`, `d` does not post-dominate `s`, and `B` lies on the tree path from
`d` up to (excluding) the immediate post-dominator of `s` - spelled
here through the post-dominance relation: `B` post-dominates `d`, and
`ipdom(s)` (when it exists) post-dominates `B` while differing from
`B`.  The synthetic edge `(none, entry)` is present iff `B`
post-dominates the entry block. -/
def SpecCDEdge (g : CFGm) (ipdom : Nat → Option Nat) (fuel B : Nat)
    (e : CDEdge) : Prop :=
  match e with
  | (some s, d) =>
      s ∈ g.blocks ∧ d ∈ g.succ s ∧ ¬ pdomRel ipdom fuel d s ∧
        pdomRel ipdom fuel B d ∧
        (match ipdom s with
         | none => True
         | some p => pdomRel ipdom fuel p B ∧ B ≠ p)
  | (none, d) => d = g.entry ∧ pdomRel ipdom fuel B g.entry

/-- The rank function certifies the tree shape: the parent of every
node has strictly smaller rank. -/
def TreeRank (ipdom : Nat → Option Nat) (rk : Nat → Nat) : Prop :=
  ∀ b p, ipdom b = some p → rk p < rk b

section ControlDependence

variable (ipdom : Nat → Option Nat) (rk : Nat → Nat)

theorem chainAux_succ_none {b : Nat} (m : Nat) (h : ipdom b = none) :
    chainAux ipdom (m + 1) b = [b] := by
  simp [chainAux, h]

theorem chainAux_succ_some {b p : Nat} (m : Nat) (h : ipdom b = some p) :
    chainAux ipdom (m + 1) b = b :: chainAux ipdom m p := by
  simp [chainAux, h]

theorem walkUp_succ_stop {t stop : Option Nat} (m : Nat) (h : t = stop) :
    walkUp ipdom (m + 1) t stop = [] := by
  simp [walkUp, h]

theorem walkUp_succ_cons {b : Nat} {stop : Option Nat} (m : Nat)
    (h : (some b : Option Nat) ≠ stop) :
    walkUp ipdom (m + 1) (some b) stop = b :: walkUp ipdom m (ipdom b) stop := by
  simp [walkUp, h]

theorem walkUp_nil (fuel : Nat) (stop : Option Nat) :
    walkUp ipdom fuel none stop = [] := by
  cases fuel with
  | zero => rfl
  | succ m =>
      unfold walkUp
      by_cases h : (none : Option Nat) = stop
      · rw [if_pos h]
      · rw [if_neg h]

theorem chainAux_canon (hrk : TreeRank ipdom rk) :
    ∀ fuel b, rk b < fuel →
      chainAux ipdom fuel b = chainAux ipdom (rk b + 1) b := by
  intro fuel
  induction fuel using Nat.strong_induction_on with
  | _ fuel ih =>
      intro b hb
      cases fuel with
      | zero => omega
      | succ m =>
          cases hip : ipdom b with
          | none => rw [chainAux_succ_none ipdom m hip,
              chainAux_succ_none ipdom (rk b) hip]
          | some p =>
              have hpb := hrk b p hip
              have hm : 1 ≤ m := by omega
              rw [chainAux_succ_some ipdom m hip,
                chainAux_succ_some ipdom (rk b) hip]
              have h1 : chainAux ipdom m p = chainAux ipdom (rk p + 1) p :=
                ih m (Nat.lt_succ_self m) p (by omega)
              have h2 : chainAux ipdom (rk b) p = chainAux ipdom (rk p + 1) p :=
                ih (rk b) (by omega) p (by omega)
              rw [h1, h2]

theorem walkUp_canon (hrk : TreeRank ipdom rk) :
    ∀ fuel b stop, rk b < fuel →
      walkUp ipdom fuel (some b) stop = walkUp ipdom (rk b + 1) (some b) stop := by
  intro fuel
  induction fuel using Nat.strong_induction_on with
  | _ fuel ih =>
      intro b stop hb
      cases fuel with
      | zero => omega
      | succ m =>
          by_cases hstop : (some b : Option Nat) = stop
          · rw [walkUp_succ_stop ipdom m hstop, walkUp_succ_stop ipdom (rk b) hstop]
          · rw [walkUp_succ_cons ipdom m hstop, walkUp_succ_cons ipdom (rk b) hstop]
            cases hip : ipdom b with
            | none => rw [walkUp_nil, walkUp_nil]
            | some p =>
                have hpb := hrk b p hip
                have hm : 1 ≤ m := by omega
                have h1 : walkUp ipdom m (some p) stop =
                    walkUp ipdom (rk p + 1) (some p) stop :=
                  ih m (Nat.lt_succ_self m) p stop (by omega)
                have h2 : walkUp ipdom (rk b) (some p) stop =
                    walkUp ipdom (rk p + 1) (some p) stop :=
                  ih (rk b) (by omega) p stop (by omega)
                rw [h1, h2]

theorem chainAux_head (fuel b : Nat) (h : 0 < fuel) :
    b ∈ chainAux ipdom fuel b := by
  cases fuel with
  | zero => omega
  | succ m => simp [chainAux]

theorem chainAux_rank_le (hrk : TreeRank ipdom rk) :
    ∀ fuel a b, a ∈ chainAux ipdom fuel b → rk a ≤ rk b := by
  intro fuel
  induction fuel with
  | zero => intro a b h; cases h
  | succ m ih =>
      intro a b h
      cases hip : ipdom b with
      | none =>
          rw [chainAux_succ_none ipdom m hip] at h
          rcases List.mem_singleton.mp h with rfl
          exact le_refl _
      | some p =>
          rw [chainAux_succ_some ipdom m hip] at h
          rcases List.mem_cons.mp h with rfl | h
          · exact le_refl _
          · have := ih a p h
            have := hrk b p hip
            omega

theorem chainAux_lt (hrk : TreeRank ipdom rk) :
    ∀ fuel a b, a ∈ chainAux ipdom fuel b → a = b ∨ rk a < rk b := by
  intro fuel a b h
  cases fuel with
  | zero => cases h
  | succ m =>
      cases hip : ipdom b with
      | none =>
          rw [chainAux_succ_none ipdom m hip] at h
          rcases List.mem_singleton.mp h with rfl
          exact Or.inl rfl
      | some p =>
          rw [chainAux_succ_some ipdom m hip] at h
          rcases List.mem_cons.mp h with rfl | h
          · exact Or.inl rfl
          · have h1 := chainAux_rank_le ipdom rk hrk m a p h
            have h2 := hrk b p hip
            exact Or.inr (by omega)

theorem chainAux_antisymm (hrk : TreeRank ipdom rk)
    (fuel fuel' a b : Nat) (h1 : a ∈ chainAux ipdom fuel b)
    (h2 : b ∈ chainAux ipdom fuel' a) : a = b := by
  rcases chainAux_lt ipdom rk hrk fuel a b h1 with h | h
  · exact h
  · rcases chainAux_lt ipdom rk hrk fuel' b a h2 with h' | h'
    · exact h'.symm
    · omega

theorem walkUp_subset (fuel : Nat) (d B : Nat) (stop : Option Nat)
    (h : B ∈ walkUp ipdom fuel (some d) stop) : B ∈ chainAux ipdom fuel d := by
  induction fuel generalizing d with
  | zero => cases h
  | succ m ih =>
      by_cases hstop : (some d : Option Nat) = stop
      · rw [walkUp_succ_stop ipdom m hstop] at h
        cases h
      · rw [walkUp_succ_cons ipdom m hstop] at h
        cases hip : ipdom d with
        | none =>
            rw [hip, walkUp_nil] at h
            rcases List.mem_cons.mp h with rfl | h
            · rw [chainAux_succ_none ipdom m hip]
              exact List.mem_singleton.mpr rfl
            · cases h
        | some p =>
            rw [hip] at h
            rw [chainAux_succ_some ipdom m hip]
            rcases List.mem_cons.mp h with rfl | h
            · exact List.mem_cons_self _ _
            · exact List.mem_cons_of_mem _ (ih p h)

theorem walkUp_stop_none (fuel : Nat) (d : Nat) :
    walkUp ipdom fuel (some d) none = chainAux ipdom fuel d := by
  induction fuel generalizing d with
  | zero => rfl
  | succ m ih =>
      rw [walkUp_succ_cons ipdom m (by simp)]
      cases hip : ipdom d with
      | none => rw [walkUp_nil, chainAux_succ_none ipdom m hip]
      | some p => rw [ih p, chainAux_succ_some ipdom m hip]

theorem walkUp_mem_iff (hrk : TreeRank ipdom rk) :
    ∀ fuel d p B, rk d < fuel → p ∈ chainAux ipdom fuel d →
      (B ∈ walkUp ipdom fuel (some d) (some p) ↔
        B ∈ chainAux ipdom fuel d ∧ p ∈ chainAux ipdom fuel B ∧ B ≠ p) := by
  intro fuel
  induction fuel using Nat.strong_induction_on with
  | _ fuel ih =>
      intro d p B hd hp
      cases fuel with
      | zero => omega
      | succ m =>
          by_cases hdp : d = p
          · subst hdp
            rw [walkUp_succ_stop ipdom m rfl]
            constructor
            · intro h; cases h
            · rintro ⟨h1, h2, h3⟩
              exact absurd (chainAux_antisymm ipdom rk hrk _ _ B d h1 h2) h3
          · rw [walkUp_succ_cons ipdom m (by simpa using hdp)]
            cases hip : ipdom d with
            | none =>
                exfalso
                rw [chainAux_succ_none ipdom m hip] at hp
                rcases List.mem_singleton.mp hp with rfl
                exact hdp rfl
            | some d' =>
                have hd'd := hrk d d' hip
                have hm : 1 ≤ m := by omega
                have hd'm : rk d' < m := by omega
                have hchaind := chainAux_succ_some ipdom (b := d) m hip
                rw [hchaind] at hp
                have hpd' : p ∈ chainAux ipdom m d' := by
                  rcases List.mem_cons.mp hp with rfl | hyp
                  · exact absurd rfl hdp
                  · exact hyp
                have IH := ih m (Nat.lt_succ_self m) d' p B hd'm hpd'
                rw [hchaind]
                by_cases hBd : B = d
                · subst hBd
                  constructor
                  · intro _
                    exact ⟨List.mem_cons_self _ _, by rw [hchaind]; exact hp, hdp⟩
                  · intro _
                    exact List.mem_cons_self _ _
                · constructor
                  · intro h
                    rcases List.mem_cons.mp h with rfl | h
                    · exact absurd rfl hBd
                    · obtain ⟨hc, hpB, hBp⟩ := IH.mp h
                      have hBrk : rk B ≤ rk d' :=
                        chainAux_rank_le ipdom rk hrk m B d' hc
                      refine ⟨List.mem_cons_of_mem _ hc, ?_, hBp⟩
                      rw [chainAux_canon ipdom rk hrk (m + 1) B (by omega),
                        ← chainAux_canon ipdom rk hrk m B (by omega)]
                      exact hpB
                  · rintro ⟨h1, h2, h3⟩
                    rcases List.mem_cons.mp h1 with rfl | h1
                    · exact absurd rfl hBd
                    · have hBrk : rk B ≤ rk d' :=
                        chainAux_rank_le ipdom rk hrk m B d' h1
                      refine List.mem_cons_of_mem _ (IH.mpr ⟨h1, ?_, h3⟩)
                      rw [chainAux_canon ipdom rk hrk m B (by omega),
                        ← chainAux_canon ipdom rk hrk (m + 1) B (by omega)]
                      exact h2

theorem mem_computeCD (g : CFGm) (fuel B : Nat) (e : CDEdge) :
    e ∈ computeCD g ipdom fuel B ↔ (B, e) ∈ cdInserts g ipdom fuel := by
  unfold computeCD
  rw [List.mem_filterMap]
  constructor
  · rintro ⟨⟨t, e'⟩, hmem, hcond⟩
    by_cases ht : t = B
    · subst ht
      simp at hcond
      subst hcond
      exact hmem
    · simp [ht] at hcond
  · intro h
    exact ⟨(B, e), h, by simp⟩

theorem mem_cdInserts_some (g : CFGm) (fuel B s d : Nat) :
    (B, ((some s : Option Nat), d)) ∈ cdInserts g ipdom fuel ↔
      s ∈ g.blocks ∧ d ∈ g.succ s ∧ ¬ pdomRel ipdom fuel d s ∧
        B ∈ walkUp ipdom fuel (some d) (ipdom s) := by
  unfold cdInserts
  rw [List.mem_append]
  constructor
  · intro h
    rcases h with h | h
    · rw [List.mem_flatten] at h
      obtain ⟨l, hl, hBl⟩ := h
      rw [List.mem_map] at hl
      obtain ⟨src, hsrc, rfl⟩ := hl
      rw [List.mem_flatten] at hBl
      obtain ⟨l', hl', hBl'⟩ := hBl
      rw [List.mem_map] at hl'
      obtain ⟨dst, hdst, rfl⟩ := hl'
      by_cases hpd : pdomRel ipdom fuel dst src
      · rw [if_pos hpd] at hBl'
        cases hBl'
      · rw [if_neg hpd] at hBl'
        rw [List.mem_map] at hBl'
        obtain ⟨t, ht, heq⟩ := hBl'
        have h1 : t = B := congrArg Prod.fst heq
        have h2 : src = s := by
          have := congrArg (fun x => x.2.1) heq
          simpa using this
        have h3 : dst = d := congrArg (fun x => x.2.2) heq
        subst h1; subst h2; subst h3
        exact ⟨hsrc, hdst, hpd, ht⟩
    · rw [List.mem_map] at h
      obtain ⟨t, _, heq⟩ := h
      have := congrArg (fun x => x.2.1) heq
      simp at this
  · rintro ⟨hs, hd, hpd, hB⟩
    left
    rw [List.mem_flatten]
    refine ⟨((g.succ s).map (fun dst =>
        if pdomRel ipdom fuel dst s then []
        else (walkUp ipdom fuel (some dst) (ipdom s)).map
          (fun t => (t, ((some s : Option Nat), dst))))).flatten,
      List.mem_map_of_mem _ hs, ?_⟩
    rw [List.mem_flatten]
    refine ⟨if pdomRel ipdom fuel d s then []
        else (walkUp ipdom fuel (some d) (ipdom s)).map
          (fun t => (t, ((some s : Option Nat), d))),
      List.mem_map_of_mem _ hd, ?_⟩
    rw [if_neg hpd]
    exact List.mem_map_of_mem _ hB

theorem mem_cdInserts_none (g : CFGm) (fuel B d : Nat) :
    (B, ((none : Option Nat), d)) ∈ cdInserts g ipdom fuel ↔
      d = g.entry ∧ B ∈ chainAux ipdom fuel g.entry := by
  unfold cdInserts
  rw [List.mem_append]
  constructor
  · intro h
    rcases h with h | h
    · exfalso
      rw [List.mem_flatten] at h
      obtain ⟨l, hl, hBl⟩ := h
      rw [List.mem_map] at hl
      obtain ⟨src, _, rfl⟩ := hl
      rw [List.mem_flatten] at hBl
      obtain ⟨l', hl', hBl'⟩ := hBl
      rw [List.mem_map] at hl'
      obtain ⟨dst, _, rfl⟩ := hl'
      by_cases hpd : pdomRel ipdom fuel dst src
      · rw [if_pos hpd] at hBl'
        cases hBl'
      · rw [if_neg hpd] at hBl'
        rw [List.mem_map] at hBl'
        obtain ⟨t, _, heq⟩ := hBl'
        have := congrArg (fun x => x.2.1) heq
        simp at this
    · rw [List.mem_map] at h
      obtain ⟨t, ht, heq⟩ := h
      have h1 : t = B := congrArg Prod.fst heq
      have h2 : g.entry = d := congrArg (fun x => x.2.2) heq
      subst h1; subst h2
      rw [← walkUp_stop_none]
      exact ⟨rfl, ht⟩
  · rintro ⟨rfl, hB⟩
    right
    rw [← walkUp_stop_none] at hB
    exact List.mem_map_of_mem _ hB

/-- C2: under a well-formed post-dominator tree (certified by a rank
function bounded by the fuel) whose immediate post-dominator of any
branch source post-dominates each non-post-dominating successor, the
map computed by `computeControlDependence` contains a non-synthetic
edge `(s, d)` in `CD[B]` exactly when `d` is a CFG successor of `s`
that does not post-dominate `s` and `B` lies on the post-dominator
chain from `d` strictly below the immediate post-dominator of `s`, and
contains the synthetic entry edge in `CD[B]` exactly when `B`
post-dominates the entry block; the map is a pure function of the CFG
and the tree. -/
theorem control_dependence_sound (g : CFGm) (fuel : Nat)
    (hrk : TreeRank ipdom rk) (hfuel : ∀ b, rk b < fuel)
    (hstop : ∀ s ∈ g.blocks, ∀ d ∈ g.succ s, ¬ pdomRel ipdom fuel d s →
      (match ipdom s with
       | none => True
       | some p => p ∈ chainAux ipdom fuel d))
    (B : Nat) (e : CDEdge) :
    e ∈ computeCD g ipdom fuel B ↔ SpecCDEdge g ipdom fuel B e := by
  rw [mem_computeCD]
  cases e with
  | mk esrc edst =>
      cases esrc with
      | some s =>
          rw [mem_cdInserts_some]
          unfold SpecCDEdge
          constructor
          · rintro ⟨hs, hd, hpd, hB⟩
            refine ⟨hs, hd, hpd, ?_, ?_⟩
            · exact walkUp_subset ipdom fuel edst B (ipdom s) hB
            · have hp := hstop s hs edst hd hpd
              cases hip : ipdom s with
              | none => trivial
              | some p =>
                  rw [hip] at hB hp
                  have := (walkUp_mem_iff ipdom rk hrk fuel edst p B
                    (hfuel edst) hp).mp hB
                  exact ⟨this.2.1, this.2.2⟩
          · rintro ⟨hs, hd, hpd, hBd, hmat⟩
            refine ⟨hs, hd, hpd, ?_⟩
            have hp := hstop s hs edst hd hpd
            cases hip : ipdom s with
            | none =>
                rw [walkUp_stop_none]
                exact hBd
            | some p =>
                rw [hip] at hmat hp
                exact (walkUp_mem_iff ipdom rk hrk fuel edst p B
                  (hfuel edst) hp).mpr ⟨hBd, hmat.1, hmat.2⟩
      | none =>
          rw [mem_cdInserts_none]
          unfold SpecCDEdge
          exact Iff.rfl

end ControlDependence

/-- Witness for C2 at a concrete input: the diamond CFG 0 → {1, 2} → 3
with post-dominator tree `ipdom 0 = ipdom 1 = ipdom 2 = some 3`,
`ipdom 3 = none`; block 1 is control-dependent exactly on the edge
(0, 1). -/
theorem control_dependence_sound_witness :
    ((some 0, 1) ∈ computeCD ⟨[0, 1, 2, 3], fun s =>
        if s = 0 then [1, 2] else if s = 1 then [3]
        else if s = 2 then [3] else [], 0⟩
      (fun b => if b < 3 then some 3 else none) 2 1 ↔
      SpecCDEdge ⟨[0, 1, 2, 3], fun s =>
        if s = 0 then [1, 2] else if s = 1 then [3]
        else if s = 2 then [3] else [], 0⟩
      (fun b => if b < 3 then some 3 else none) 2 1 (some 0, 1)) :=
  control_dependence_sound
    (fun b => if b < 3 then some 3 else none)
    (fun b => if b < 3 then 1 else 0)
    ⟨[0, 1, 2, 3], fun s =>
      if s = 0 then [1, 2] else if s = 1 then [3]
      else if s = 2 then [3] else [], 0⟩
    2
    (by
      intro b p h
      by_cases hb : b < 3
      · simp only [if_pos hb] at h
        cases h
        simp [hb]
      · simp [hb] at h)
    (by
      intro b
      by_cases hb : b < 3 <;> simp [hb])
    (by
      intro s hs d hd hpd
      fin_cases hs <;> simp_all
      all_goals try rcases hd with rfl | rfl
      all_goals decide)
    1 (some 0, 1)

end PatmosProof
